import Mathlib

/-!
Verification development for the free-text ticker resolver of
`finance_api.py` (functions `_normalize_company_text`, `_maybe_append_st`,
`resolve_tickers_from_text`, tables `_ALIAS_TO_TICKER`,
`_STOCKHOLM_SUFFIX_CANDIDATES`, helper regexes, and the `rapidfuzz`
scoring functions the resolver calls).

Modelling conventions:
* Python strings are Lean `String`s; character-level case mapping
  (`str.lower` / `str.upper`) is modelled for the character repertoire the
  resolver's tokenizer can produce (ASCII plus the Nordic letters Å/Ä/Ö),
  all other characters are fixed points.
* The Python `set` named `found` in `resolve_tickers_from_text` is an
  UNORDERED hash set: its iteration order depends on the per-process hash
  seed and is not insertion order.  We therefore model the set's contents
  as the list of elements in first-insertion order (`foundList`), and
  quantify over an arbitrary iteration order `l` with `l.Perm (foundList …)`
  whenever a statement depends on the order in which Python enumerates the
  set.  `resolveFrom l limit` is the tail of the function (suffix
  normalisation, `dict.fromkeys` dedup, `[:limit]` truncation) applied to
  the set elements enumerated in order `l`.
* Fuzzy scores are exact rationals represented as numerator/denominator
  pairs of naturals (`Score`), compared by cross multiplication; rapidfuzz
  computes the same quantities in floating point on a 0–100 scale.
-/

namespace TickerResolver

/-- Case-mapping table (lower, upper) for the characters the tokenizer keeps:
ASCII letters and å/ä/ö, as in Python `str.lower`/`str.upper` restricted to
this repertoire. -/
def casePairs : List (Char × Char) :=
  [('a','A'), ('b','B'), ('c','C'), ('d','D'), ('e','E'), ('f','F'), ('g','G'),
   ('h','H'), ('i','I'), ('j','J'), ('k','K'), ('l','L'), ('m','M'), ('n','N'),
   ('o','O'), ('p','P'), ('q','Q'), ('r','R'), ('s','S'), ('t','T'), ('u','U'),
   ('v','V'), ('w','W'), ('x','X'), ('y','Y'), ('z','Z'),
   ('å','Å'), ('ä','Ä'), ('ö','Ö')]

/-- Python `c.upper()` on a single character (model). -/
def pyUpperChar (c : Char) : Char :=
  match casePairs.find? (fun p => p.1 = c) with
  | some p => p.2
  | none => c

/-- Python `c.lower()` on a single character (model). -/
def pyLowerChar (c : Char) : Char :=
  match casePairs.find? (fun p => p.2 = c) with
  | some p => p.1
  | none => c

/-- Python `s.upper()` (model). -/
def pyUpperS (s : String) : String := ⟨s.data.map pyUpperChar⟩

/-- Python `s.lower()` (model). -/
def pyLowerS (s : String) : String := ⟨s.data.map pyLowerChar⟩

/-- The 52 ASCII letters (the `[A-Za-z]` repertoire of the ticker regex). -/
def asciiLetters : List Char :=
  ['a', 'b', 'c', 'd', 'e', 'f', 'g', 'h', 'i', 'j', 'k', 'l', 'm',
   'n', 'o', 'p', 'q', 'r', 's', 't', 'u', 'v', 'w', 'x', 'y', 'z',
   'A', 'B', 'C', 'D', 'E', 'F', 'G', 'H', 'I', 'J', 'K', 'L', 'M',
   'N', 'O', 'P', 'Q', 'R', 'S', 'T', 'U', 'V', 'W', 'X', 'Y', 'Z']

/-- Whitespace characters recognised by Python `str.split()` (the ASCII ones;
the resolver never feeds it exotic Unicode whitespace because
`_normalize_company_text` joins tokens with a single blank). -/
def wsChars : List Char := [' ', '\t', '\n', '\r', '\x0b', '\x0c']

/-- Is `c` whitespace for `str.split()`? -/
def isPyWs (c : Char) : Bool := c ∈ wsChars

/-- Character class of the token regex `_WORDS_RX = [A-Za-zÅÄÖåäö\-\.]+`. -/
def isWordChar (c : Char) : Bool :=
  ('A' ≤ c && c ≤ 'Z') || ('a' ≤ c && c ≤ 'z') ||
  c ∈ (['Å', 'Ä', 'Ö', 'å', 'ä', 'ö', '-', '.'] : List Char)

/-- Single-pass scanner accumulating the current run in reverse. -/
def runsByAux (p : α → Bool) : List α → List α → List (List α)
  | [], cur => if cur.isEmpty then [] else [cur.reverse]
  | a :: as, cur =>
    if p a then runsByAux p as (a :: cur)
    else if cur.isEmpty then runsByAux p as []
    else cur.reverse :: runsByAux p as []

/-- Maximal runs of characters satisfying `p`; characters failing `p` are
separators and are dropped.  `runsBy isWordChar` models `re.findall` of the
character-class regex, `runsBy (fun c => !isPyWs c)` models `str.split()`. -/
def runsBy (p : α → Bool) (l : List α) : List (List α) := runsByAux p l []

/-- `_normalize_company_text(text)`: lower-case the text, extract the word-class
tokens, join them with single blanks. -/
def _normalize_company_text (text : String) : String :=
  ⟨List.intercalate [' '] (runsBy isWordChar (text.data.map pyLowerChar))⟩

/-- Python `s.split()` (split on whitespace runs, dropping empty pieces). -/
def pySplit (s : String) : List String :=
  (runsBy (fun c => !isPyWs c) s.data).map (fun cs => ⟨cs⟩)

/-- Uppercase ASCII letter test, the `[A-Z]` of the ticker regex. -/
def isUpperAlpha (c : Char) : Bool := 'A' ≤ c && c ≤ 'Z'

/-- Tail of the ticker regex after the optional share class: `(\.[A-Z]{2,4})?`
followed by end of string. -/
def shapeDotPart : List Char → Bool
  | [] => true
  | '.' :: rest =>
    let ls := rest.takeWhile isUpperAlpha
    let r2 := rest.dropWhile isUpperAlpha
    decide (2 ≤ ls.length ∧ ls.length ≤ 4 ∧ r2 = [])
  | _ => false

/-- Middle of the ticker regex: `(\-[A-Z])?` then the dot part. -/
def shapeHyPart : List Char → Bool
  | '-' :: c :: rest => isUpperAlpha c && shapeDotPart rest
  | '-' :: [] => false
  | l => shapeDotPart l

/-- `re.fullmatch(r"[A-Z]{1,5}(\-[A-Z])?(\.[A-Z]{2,4})?", s)` as a Boolean:
the ticker shape grammar of strategy 1. -/
def tickerShape (s : String) : Bool :=
  let ls := s.data.takeWhile isUpperAlpha
  let rest := s.data.dropWhile isUpperAlpha
  (1 ≤ ls.length && ls.length ≤ 5) && shapeHyPart rest

/-- `_ALIAS_TO_TICKER`, in source (= Python dict insertion) order. -/
def _ALIAS_TO_TICKER : List (String × String) :=
  [("tesla", "TSLA"),
   ("apple", "AAPL"),
   ("microsoft", "MSFT"),
   ("nvidia", "NVDA"),
   ("google", "GOOGL"),
   ("alphabet", "GOOGL"),
   ("amazon", "AMZN"),
   ("meta", "META"),
   ("facebook", "META"),
   ("netflix", "NFLX"),
   ("oracle", "ORCL"),
   ("adobe", "ADBE"),
   ("volvo", "VOLV-B.ST"),
   ("volvob", "VOLV-B.ST"),
   ("ericsson", "ERIC-B.ST"),
   ("ericson", "ERIC-B.ST"),
   ("eric-b", "ERIC-B.ST"),
   ("astra", "AZN"),
   ("astrazeneca", "AZN"),
   ("h&m", "HM-B.ST"),
   ("hm", "HM-B.ST"),
   ("sandvik", "SAND.ST"),
   ("atlas copco", "ATCO-B.ST"),
   ("atlas", "ATCO-B.ST"),
   ("evolution", "EVO.ST")]

/-- `_STOCKHOLM_SUFFIX_CANDIDATES` (a Python set; only membership is used). -/
def _STOCKHOLM_SUFFIX_CANDIDATES : List String :=
  ["VOLV-A", "VOLV-B", "ERIC-A", "ERIC-B", "HM-B", "SAND", "ATCO-A", "ATCO-B", "EVO"]

/-- `_ST_SUFFIX`. -/
def _ST_SUFFIX : String := ".ST"

/-- Python `s.endswith(".ST")` (model). -/
def endsST (s : String) : Bool := s.data.reverse.take 3 = ['T', 'S', '.']

/-- `_maybe_append_st(ticker)`: upper-case, and append ".ST" to known bare
Stockholm symbols. -/
def _maybe_append_st (ticker : String) : String :=
  let t := pyUpperS ticker
  if t ∈ _STOCKHOLM_SUFFIX_CANDIDATES ∧ ¬ endsST t then t ++ _ST_SUFFIX else t

/-! Model of the `rapidfuzz` scorers used by the resolver:
`fuzz.ratio` is the normalised Indel similarity `200·lcs(a,b)/(|a|+|b|)`;
`fuzz.partial_ratio` (here `slideRatioScore`) is the best `ratio` of the
shorter string against a window of its length in the longer string;
the token variants sort / set-decompose the whitespace-split tokens; and
`fuzz.WRatio` combines them with the weights 0.95, and 0.9 or 0.6 depending
on the length ratio.  Scores are exact fractions `(num, den)` on the 0–100
scale. -/

/-- Exact fuzzy score: numerator and (positive) denominator on a 0–100 scale. -/
abbrev Score := Nat × Nat

/-- Score comparison `x < y` by cross multiplication. -/
def scoreLt (x y : Score) : Bool := x.1 * y.2 < y.1 * x.2

/-- Larger of two scores (left on ties). -/
def maxScore (x y : Score) : Score := if scoreLt x y then y else x

/-- Multiply a score by the factor `p / q`. -/
def scaleScore (s : Score) (p q : Nat) : Score := (s.1 * p, s.2 * q)

/-- One row update of the longest-common-subsequence dynamic program. -/
def lcsStep (c : Char) : List Char → List Nat → Nat → Nat → List Nat
  | [], _, _, _ => []
  | a :: as, p :: ps, diag, left =>
    let v := if a = c then diag + 1 else max left p
    v :: lcsStep c as ps p v
  | _ :: _, [], _, _ => []

/-- Length of the longest common subsequence of `a` and `b`. -/
def lcsLen (a b : List Char) : Nat :=
  let init := List.replicate (a.length + 1) 0
  let fin := b.foldl
    (fun prev c =>
      match prev with
      | [] => []
      | p :: ps => 0 :: lcsStep c a ps p 0)
    init
  fin.getLastD 0

/-- `fuzz.ratio`: normalised Indel similarity, `200·lcs/(|a|+|b|)`. -/
def ratioScore (a b : List Char) : Score :=
  let s := a.length + b.length
  if s = 0 then (100, 1) else (200 * lcsLen a b, s)

/-- `fuzz.partial_ratio`: best ratio of the shorter string against a
same-length window of the longer string. -/
def slideRatioScore (a b : List Char) : Score :=
  let sh := if a.length ≤ b.length then a else b
  let lo := if a.length ≤ b.length then b else a
  if sh.length = 0 then (if lo.length = 0 then (100, 1) else (0, 1)) else
  let w := sh.length
  (List.range (lo.length - w + 1)).foldl
    (fun best i => maxScore best (ratioScore sh ((lo.drop i).take w))) (0, 1)

/-- Lexicographic (code-point) order on character lists, as Python `sorted`
orders strings. -/
def lexLe : List Char → List Char → Bool
  | [], _ => true
  | _ :: _, [] => false
  | a :: as, b :: bs => if a < b then true else if b < a then false else lexLe as bs

/-- Insert into a lexicographically sorted list. -/
def insertLex (x : List Char) : List (List Char) → List (List Char)
  | [] => [x]
  | y :: ys => if lexLe x y then x :: y :: ys else y :: insertLex x ys

/-- Sort token lists lexicographically (insertion sort). -/
def sortLex (l : List (List Char)) : List (List Char) := l.foldr insertLex []

/-- Whitespace tokens of a character list (Python `str.split()`). -/
def wsTokens (cs : List Char) : List (List Char) := runsBy (fun c => !isPyWs c) cs

/-- Remove duplicates keeping first occurrences. -/
def dedupKeep (l : List (List Char)) : List (List Char) :=
  l.foldl (fun acc x => if x ∈ acc then acc else acc ++ [x]) []

/-- Sorted-tokens rendering used by `fuzz.token_sort_ratio`. -/
def sortJoin (cs : List Char) : List Char :=
  List.intercalate [' '] (sortLex (wsTokens cs))

/-- `fuzz.token_sort_ratio`. -/
def tokenSortScore (a b : List Char) : Score := ratioScore (sortJoin a) (sortJoin b)

/-- Token-set decomposition: sorted common tokens, and each side's sorted
remainder appended to them. -/
def tokenSetParts (a b : List Char) : List Char × List Char × List Char :=
  let ta := dedupKeep (wsTokens a)
  let tb := dedupKeep (wsTokens b)
  let sect := sortLex (ta.filter (fun t => t ∈ tb))
  let da := sortLex (ta.filter (fun t => t ∉ tb))
  let db := sortLex (tb.filter (fun t => t ∉ ta))
  (List.intercalate [' '] sect,
   List.intercalate [' '] (sect ++ da),
   List.intercalate [' '] (sect ++ db))

/-- `fuzz.token_set_ratio`. -/
def tokenSetScore (a b : List Char) : Score :=
  let (t0, t1, t2) := tokenSetParts a b
  maxScore (ratioScore t0 t1) (maxScore (ratioScore t0 t2) (ratioScore t1 t2))

/-- `fuzz.token_ratio`: max of token-sort and token-set ratios. -/
def tokenMaxScore (a b : List Char) : Score :=
  maxScore (tokenSortScore a b) (tokenSetScore a b)

/-- Sliding variant of `token_sort_ratio`. -/
def slideTokenSortScore (a b : List Char) : Score :=
  slideRatioScore (sortJoin a) (sortJoin b)

/-- Sliding variant of `token_set_ratio`. -/
def slideTokenSetScore (a b : List Char) : Score :=
  let (t0, t1, t2) := tokenSetParts a b
  maxScore (slideRatioScore t0 t1)
    (maxScore (slideRatioScore t0 t2) (slideRatioScore t1 t2))

/-- Sliding variant of `token_ratio`. -/
def slideTokenMaxScore (a b : List Char) : Score :=
  maxScore (slideTokenSortScore a b) (slideTokenSetScore a b)

/-- `fuzz.WRatio(a, b)`: 0 when either side is empty; plain/token ratio when
the lengths are within a factor 1.5; otherwise the sliding variants scaled by
0.9 (length ratio below 8) or 0.6. -/
def wratioScore (a b : List Char) : Score :=
  if a.length = 0 ∨ b.length = 0 then (0, 1) else
  let mx := max a.length b.length
  let mn := min a.length b.length
  let base := ratioScore a b
  if 2 * mx < 3 * mn then
    maxScore base (scaleScore (tokenMaxScore a b) 95 100)
  else
    let p := if mx < 8 * mn then 9 else 6
    maxScore base
      (maxScore (scaleScore (slideRatioScore a b) p 10)
        (scaleScore (slideTokenMaxScore a b) (p * 95) (10 * 100)))

/-- Insert into a list sorted by strictly descending score, after existing
entries of equal score (stability of `rapidfuzz.process.extract`). -/
def insertDesc (a : (String × String) × Score) :
    List ((String × String) × Score) → List ((String × String) × Score)
  | [] => [a]
  | b :: bs => if scoreLt b.2 a.2 then a :: b :: bs else b :: insertDesc a bs

/-- Stable sort by descending score (equal scores keep first-scored order). -/
def sortDesc (l : List ((String × String) × Score)) :
    List ((String × String) × Score) := l.foldl (fun acc a => insertDesc a acc) []

/-- `process.extract(t, choices, scorer=fuzz.WRatio, limit=limit,
score_cutoff=80)`, returning the alias table entries whose key scored at
least 80 against `t`, best scores first, truncated to `limit`. -/
def extractMatches (t : String) (limit : Nat) : List (String × String) :=
  let scored := _ALIAS_TO_TICKER.filterMap (fun kv =>
    let s := wratioScore t.data kv.1.data
    if 80 * s.2 ≤ s.1 then some (kv, s) else none)
  ((sortDesc scored).take limit).map (fun x => x.1)

/-- Add an element to the candidate accumulator unless already present:
the contents of the Python set `found` in first-insertion order. -/
def addUnique (l : List String) (x : String) : List String :=
  if x ∈ l then l else l ++ [x]

/-- Strategy 1, per token of the normalized text: `token.upper()` when
it full-matches the ticker regex, suffix-normalised (`found.add(...)`). -/
def strat1Hit (tok : String) : Option String :=
  let up := pyUpperS tok
  if tickerShape up then some (_maybe_append_st up) else none

/-- Strategy 2, per fuzzy match: the matched alias's ticker. -/
def strat2Hit (kv : String × String) : Option String := some kv.2

/-- Strategy 3, per token: `_ALIAS_TO_TICKER[w]` when `w` is an alias key. -/
def strat3Hit (w : String) : Option String := List.lookup w _ALIAS_TO_TICKER

/-- One loop iteration of the candidate-collection phase: add the discovered
candidate (if any) to the set. -/
def stepOf (f : β → Option String) (acc : List String) (b : β) : List String :=
  match f b with
  | some v => addUnique acc v
  | none => acc

/-- Candidate set of `resolve_tickers_from_text` built from the normalized
text `t`: strategy 1 (ticker-shaped tokens, suffix-normalised), strategy 2
(fuzzy alias matches), strategy 3 (exact alias membership of tokens).
The list records the set's elements in first-insertion order. -/
def foundCore (t : String) (limit : Nat) : List String :=
  let toks := pySplit t
  let s1 := toks.foldl (stepOf strat1Hit) []
  let s2 := (extractMatches t limit).foldl (stepOf strat2Hit) s1
  toks.foldl (stepOf strat3Hit) s2

/-- Candidate set for the raw input `text` (the source first normalises). -/
def foundList (text : String) (limit : Nat) : List String :=
  foundCore (_normalize_company_text text) limit

/-- The raw candidate discoveries of the three strategies, in discovery
order and with repetition (before the set deduplicates them). -/
def rawCandidates (text : String) (limit : Nat) : List String :=
  let t := _normalize_company_text text
  let toks := pySplit t
  toks.filterMap strat1Hit
    ++ (extractMatches t limit).filterMap strat2Hit
    ++ toks.filterMap strat3Hit

/-- `list(dict.fromkeys(xs))`: deduplicate keeping first occurrences. -/
def dedupFirst (l : List String) : List String := l.foldl addUnique []

/-- Tail of `resolve_tickers_from_text` applied to the set elements
enumerated in the order `l`: suffix-normalise each element, deduplicate
keeping first occurrences, truncate to `limit`. -/
def resolveFrom (l : List String) (limit : Nat) : List String :=
  (dedupFirst (l.map _maybe_append_st)).take limit

/-- `resolve_tickers_from_text(text, limit)` with the set enumerated in
first-insertion order (one admissible iteration order of the Python set). -/
def resolve_tickers_from_text (text : String) (limit : Nat) : List String :=
  resolveFrom (foundList text limit) limit

/-! Unfolding equations of the run scanner, in takeWhile/dropWhile form. -/

theorem runsByAux_spec (p : α → Bool) :
    ∀ (as cur : List α), cur ≠ [] →
      runsByAux p as cur =
        (cur.reverse ++ as.takeWhile p) :: runsByAux p (as.dropWhile p) [] := by
  intro as
  induction as with
  | nil =>
    intro cur h
    cases cur with
    | nil => cases h rfl
    | cons c cs => simp [runsByAux, List.takeWhile_nil, List.dropWhile_nil]
  | cons a as ih =>
    intro cur h
    by_cases hp : p a
    · have h1 : runsByAux p (a :: as) cur = runsByAux p as (a :: cur) := by
        simp [runsByAux, hp]
      rw [h1, ih (a :: cur) (by simp), List.takeWhile_cons_of_pos hp,
        List.dropWhile_cons_of_pos hp]
      simp
    · cases cur with
      | nil => cases h rfl
      | cons c cs =>
        have h1 : runsByAux p (a :: as) (c :: cs) =
            (c :: cs).reverse :: runsByAux p as [] := by
          simp [runsByAux, hp]
        have h2 : runsByAux p (a :: as) [] = runsByAux p as [] := by
          simp [runsByAux, hp]
        rw [h1, List.takeWhile_cons_of_neg (by simpa using hp),
          List.dropWhile_cons_of_neg (by simpa using hp), h2]
        simp

theorem runsBy_nil (p : α → Bool) : runsBy p [] = [] := rfl

theorem runsBy_cons_pos (p : α → Bool) {a : α} (as : List α) (h : p a = true) :
    runsBy p (a :: as) = (a :: as.takeWhile p) :: runsBy p (as.dropWhile p) := by
  unfold runsBy
  have h1 : runsByAux p (a :: as) [] = runsByAux p as [a] := by
    simp [runsByAux, h]
  rw [h1, runsByAux_spec p as [a] (by simp)]
  simp

theorem runsBy_cons_neg (p : α → Bool) {a : α} (as : List α) (h : p a = false) :
    runsBy p (a :: as) = runsBy p as := by
  unfold runsBy
  simp [runsByAux, h]

/-! Basic facts about the case model. -/

theorem upperChar_fixed : ∀ p ∈ casePairs, pyUpperChar p.2 = p.2 := by decide

theorem pyUpperChar_idem (c : Char) : pyUpperChar (pyUpperChar c) = pyUpperChar c := by
  cases h : casePairs.find? (fun q => q.1 = c) with
  | none =>
    have h1 : pyUpperChar c = c := by unfold pyUpperChar; rw [h]
    rw [h1, h1]
  | some p =>
    have hmem : p ∈ casePairs := List.mem_of_find?_eq_some h
    have h1 : pyUpperChar c = p.2 := by unfold pyUpperChar; rw [h]
    rw [h1, upperChar_fixed p hmem]

theorem stringData_append (a b : String) : (a ++ b).data = a.data ++ b.data := by
  cases a; cases b; rfl

theorem pyUpperS_data (s : String) : (pyUpperS s).data = s.data.map pyUpperChar := rfl

theorem stringExt {a b : String} (h : a.data = b.data) : a = b := by
  cases a; cases b; exact congrArg String.mk h

theorem pyUpperS_idem (s : String) : pyUpperS (pyUpperS s) = pyUpperS s := by
  apply stringExt
  rw [pyUpperS_data, pyUpperS_data, List.map_map]
  exact List.map_congr_left (fun c _ => pyUpperChar_idem c)

theorem pyUpperS_append (a b : String) : pyUpperS (a ++ b) = pyUpperS a ++ pyUpperS b := by
  apply stringExt
  rw [pyUpperS_data, stringData_append, stringData_append, List.map_append,
    pyUpperS_data, pyUpperS_data]

theorem endsST_append (u : String) : endsST (u ++ _ST_SUFFIX) = true := by
  have hd : (u ++ _ST_SUFFIX).data = u.data ++ ['.', 'S', 'T'] := stringData_append u _
  simp only [endsST, hd, List.reverse_append]
  rfl

/-! Facts about `_maybe_append_st`. -/

theorem maybe_append_st_spec (t : String) :
    _maybe_append_st t =
      if (pyUpperS t ∈ _STOCKHOLM_SUFFIX_CANDIDATES ∧ ¬ endsST (pyUpperS t))
      then pyUpperS t ++ _ST_SUFFIX else pyUpperS t := rfl

theorem maybe_append_st_idem (t : String) :
    _maybe_append_st (_maybe_append_st t) = _maybe_append_st t := by
  rw [maybe_append_st_spec t]
  by_cases h : (pyUpperS t ∈ _STOCKHOLM_SUFFIX_CANDIDATES ∧ ¬ endsST (pyUpperS t))
  · rw [if_pos h]
    have hup : pyUpperS (pyUpperS t ++ _ST_SUFFIX) = pyUpperS t ++ _ST_SUFFIX := by
      rw [pyUpperS_append, pyUpperS_idem]
      have hst : pyUpperS _ST_SUFFIX = _ST_SUFFIX := by decide
      rw [hst]
    have hend : endsST (pyUpperS t ++ _ST_SUFFIX) = true := endsST_append _
    rw [maybe_append_st_spec, hup, if_neg (by simp [hend])]
  · rw [if_neg h, maybe_append_st_spec, pyUpperS_idem, if_neg h]

theorem bare_no_st : ∀ b ∈ _STOCKHOLM_SUFFIX_CANDIDATES, endsST b = false := by decide

theorem maybe_append_st_not_bare (t : String) :
    _maybe_append_st t ∉ _STOCKHOLM_SUFFIX_CANDIDATES := by
  rw [maybe_append_st_spec t]
  by_cases h : (pyUpperS t ∈ _STOCKHOLM_SUFFIX_CANDIDATES ∧ ¬ endsST (pyUpperS t))
  · rw [if_pos h]
    intro hmem
    have h2 := bare_no_st _ hmem
    rw [endsST_append] at h2
    exact absurd h2 (by simp)
  · rw [if_neg h]
    intro hmem
    exact h ⟨hmem, by simp [bare_no_st _ hmem]⟩

/-! Facts about the set accumulator. -/

theorem mem_addUnique_iff {l : List String} {x y : String} :
    y ∈ addUnique l x ↔ y ∈ l ∨ y = x := by
  unfold addUnique
  by_cases h : x ∈ l
  · simp only [if_pos h]
    constructor
    · exact Or.inl
    · rintro (hy | rfl) <;> assumption
  · simp [if_neg h]

theorem addUnique_nodup {l : List String} (x : String) (h : l.Nodup) :
    (addUnique l x).Nodup := by
  unfold addUnique
  by_cases hx : x ∈ l
  · simpa [hx]
  · simp [hx, List.nodup_append, h]

theorem mem_stepOf_of_mem {f : β → Option String} {acc : List String} {x : String}
    (b : β) (hx : x ∈ acc) : x ∈ stepOf f acc b := by
  unfold stepOf
  cases f b with
  | none => exact hx
  | some v => exact mem_addUnique_iff.mpr (Or.inl hx)

theorem mem_foldl_stepOf_of_mem (f : β → Option String) (l : List β) :
    ∀ (acc : List String) (x : String), x ∈ acc → x ∈ l.foldl (stepOf f) acc := by
  induction l with
  | nil => intro acc x hx; simpa using hx
  | cons b bs ih =>
    intro acc x hx
    rw [List.foldl_cons]
    exact ih _ _ (mem_stepOf_of_mem b hx)

theorem mem_foldl_stepOf_of_hit (f : β → Option String) {l : List β} {b : β} {v : String}
    (hb : b ∈ l) (hv : f b = some v) :
    ∀ acc : List String, v ∈ l.foldl (stepOf f) acc := by
  induction l with
  | nil => cases hb
  | cons c cs ih =>
    intro acc
    rw [List.foldl_cons]
    rcases List.mem_cons.mp hb with rfl | hmem
    · apply mem_foldl_stepOf_of_mem f cs
      unfold stepOf; rw [hv]
      exact mem_addUnique_iff.mpr (Or.inr rfl)
    · exact ih hmem _

theorem mem_foldl_stepOf (f : β → Option String) (l : List β) :
    ∀ (acc : List String) (x : String), x ∈ l.foldl (stepOf f) acc →
      x ∈ acc ∨ ∃ b ∈ l, f b = some x := by
  induction l with
  | nil => intro acc x hx; exact Or.inl (by simpa using hx)
  | cons c cs ih =>
    intro acc x hx
    rw [List.foldl_cons] at hx
    rcases ih _ _ hx with hacc | ⟨b, hb, hfb⟩
    · unfold stepOf at hacc
      cases hfc : f c with
      | none => rw [hfc] at hacc; exact Or.inl hacc
      | some v =>
        rw [hfc] at hacc
        rcases mem_addUnique_iff.mp hacc with h | rfl
        · exact Or.inl h
        · exact Or.inr ⟨c, List.mem_cons_self c cs, hfc⟩
    · exact Or.inr ⟨b, List.mem_cons_of_mem c hb, hfb⟩

theorem foldl_stepOf_nodup (f : β → Option String) (l : List β) :
    ∀ acc : List String, acc.Nodup → (l.foldl (stepOf f) acc).Nodup := by
  induction l with
  | nil => intro acc h; simpa using h
  | cons c cs ih =>
    intro acc h
    rw [List.foldl_cons]
    apply ih
    unfold stepOf
    cases f c with
    | none => exact h
    | some v => exact addUnique_nodup v h

/-! Facts about `dedupFirst` and `resolveFrom`. -/

theorem foldl_addUnique_append {l acc : List String} (hd : ∀ x ∈ l, x ∉ acc)
    (hl : l.Nodup) : l.foldl addUnique acc = acc ++ l := by
  induction l generalizing acc with
  | nil => simp
  | cons x xs ih =>
    have hx : x ∉ acc := hd x (List.mem_cons_self x xs)
    have h1 : addUnique acc x = acc ++ [x] := by unfold addUnique; rw [if_neg hx]
    have hxs : xs.Nodup := (List.nodup_cons.mp hl).2
    have hxnotxs : x ∉ xs := (List.nodup_cons.mp hl).1
    have hd' : ∀ y ∈ xs, y ∉ acc ++ [x] := by
      intro y hy
      simp only [List.mem_append, List.mem_singleton]
      rintro (hy2 | rfl)
      · exact hd y (List.mem_cons_of_mem x hy) hy2
      · exact hxnotxs hy
    calc (x :: xs).foldl addUnique acc = xs.foldl addUnique (addUnique acc x) := rfl
      _ = xs.foldl addUnique (acc ++ [x]) := by rw [h1]
      _ = (acc ++ [x]) ++ xs := ih hd' hxs
      _ = acc ++ x :: xs := by simp

theorem dedupFirst_eq_self {l : List String} (h : l.Nodup) : dedupFirst l = l := by
  have := @foldl_addUnique_append l [] (by simp) h
  simpa [dedupFirst] using this

theorem mem_foldl_addUnique {l : List String} :
    ∀ {acc x}, x ∈ l.foldl addUnique acc → x ∈ acc ∨ x ∈ l := by
  induction l with
  | nil => intro acc x hx; exact Or.inl (by simpa using hx)
  | cons c cs ih =>
    intro acc x hx
    rcases ih hx with hacc | hcs
    · rcases mem_addUnique_iff.mp hacc with h | rfl
      · exact Or.inl h
      · exact Or.inr (List.mem_cons_self _ _)
    · exact Or.inr (List.mem_cons_of_mem _ hcs)

theorem mem_dedupFirst {l : List String} {x : String} (h : x ∈ dedupFirst l) : x ∈ l := by
  rcases mem_foldl_addUnique h with h2 | h2
  · cases h2
  · exact h2

theorem resolveFrom_eq_take {l : List String} (limit : Nat)
    (hfix : ∀ x ∈ l, _maybe_append_st x = x) (hnd : l.Nodup) :
    resolveFrom l limit = l.take limit := by
  unfold resolveFrom
  have hmap : l.map _maybe_append_st = l := by
    rw [List.map_congr_left hfix]; simp
  rw [hmap, dedupFirst_eq_self hnd]

theorem mem_resolveFrom_image {l : List String} {limit : Nat} {x : String}
    (h : x ∈ resolveFrom l limit) : ∃ y ∈ l, x = _maybe_append_st y := by
  unfold resolveFrom at h
  have h2 := mem_dedupFirst (List.mem_of_mem_take h)
  rcases List.mem_map.mp h2 with ⟨y, hy, rfl⟩
  exact ⟨y, hy, rfl⟩

/-! Invariants of the candidate set. -/

theorem mem_insertDesc {a b : (String × String) × Score}
    {l : List ((String × String) × Score)} :
    a ∈ insertDesc b l → a = b ∨ a ∈ l := by
  induction l with
  | nil =>
    intro h
    simp only [insertDesc, List.mem_singleton] at h
    exact Or.inl h
  | cons c cs ih =>
    intro h
    unfold insertDesc at h
    by_cases hc : scoreLt c.2 b.2
    · rw [if_pos hc] at h
      rcases List.mem_cons.mp h with rfl | h2
      · exact Or.inl rfl
      · exact Or.inr h2
    · rw [if_neg hc] at h
      rcases List.mem_cons.mp h with rfl | h2
      · exact Or.inr (List.mem_cons_self _ _)
      · rcases ih h2 with h3 | h3
        · exact Or.inl h3
        · exact Or.inr (List.mem_cons_of_mem _ h3)

theorem mem_foldl_insertDesc {l : List ((String × String) × Score)} :
    ∀ {acc : List ((String × String) × Score)} {a : (String × String) × Score},
      a ∈ l.foldl (fun acc x => insertDesc x acc) acc → a ∈ acc ∨ a ∈ l := by
  induction l with
  | nil => intro acc a h; exact Or.inl (by simpa using h)
  | cons c cs ih =>
    intro acc a h
    rw [List.foldl_cons] at h
    rcases ih h with h2 | h2
    · rcases mem_insertDesc h2 with rfl | h3
      · exact Or.inr (List.mem_cons_self _ _)
      · exact Or.inl h3
    · exact Or.inr (List.mem_cons_of_mem _ h2)

theorem mem_sortDesc {a : (String × String) × Score}
    {l : List ((String × String) × Score)} (h : a ∈ sortDesc l) : a ∈ l := by
  rcases mem_foldl_insertDesc h with h2 | h2
  · cases h2
  · exact h2

theorem extractMatches_subset {t : String} {limit : Nat} {kv : String × String}
    (h : kv ∈ extractMatches t limit) : kv ∈ _ALIAS_TO_TICKER := by
  unfold extractMatches at h
  rcases List.mem_map.mp h with ⟨p, hp, rfl⟩
  have h2 := mem_sortDesc (List.mem_of_mem_take hp)
  rcases List.mem_filterMap.mp h2 with ⟨q, hq, hq2⟩
  by_cases hcut : 80 * (wratioScore t.data q.1.data).2 ≤ (wratioScore t.data q.1.data).1
  · rw [if_pos hcut] at hq2
    cases hq2
    exact hq
  · rw [if_neg hcut] at hq2
    cases hq2

theorem lookup_mem {w v : String} :
    ∀ {ps : List (String × String)}, List.lookup w ps = some v → (w, v) ∈ ps := by
  intro ps
  induction ps with
  | nil => intro h; cases h
  | cons p ps ih =>
    intro h
    cases p with
    | mk k val =>
      by_cases hw : (w == k) = true
      · simp only [List.lookup, hw] at h
        cases h
        have hwk : w = k := eq_of_beq hw
        subst hwk
        exact List.mem_cons_self _ _
      · simp only [List.lookup, Bool.not_eq_true] at hw
        simp only [List.lookup, hw] at h
        exact List.mem_cons_of_mem _ (ih h)

theorem alias_values_fixed : ∀ p ∈ _ALIAS_TO_TICKER, _maybe_append_st p.2 = p.2 := by
  decide

theorem foundCore_fixed (t : String) (limit : Nat) :
    ∀ x ∈ foundCore t limit, _maybe_append_st x = x := by
  intro x hx
  unfold foundCore at hx
  rcases mem_foldl_stepOf _ _ _ _ hx with h3 | ⟨w, _, hw⟩
  · rcases mem_foldl_stepOf _ _ _ _ h3 with h2 | ⟨kv, hkv, hkv2⟩
    · rcases mem_foldl_stepOf _ _ _ _ h2 with h1 | ⟨tok, _, htok⟩
      · cases h1
      · unfold strat1Hit at htok
        by_cases hs : tickerShape (pyUpperS tok)
        · rw [if_pos hs] at htok
          cases htok
          exact maybe_append_st_idem _
        · rw [if_neg hs] at htok
          cases htok
    · unfold strat2Hit at hkv2
      cases hkv2
      exact alias_values_fixed _ (extractMatches_subset hkv)
  · unfold strat3Hit at hw
    exact alias_values_fixed _ (lookup_mem hw)

theorem foundCore_nodup (t : String) (limit : Nat) : (foundCore t limit).Nodup := by
  unfold foundCore
  exact foldl_stepOf_nodup _ _ _
    (foldl_stepOf_nodup _ _ _ (foldl_stepOf_nodup _ _ _ List.nodup_nil))

theorem foundList_fixed (text : String) (limit : Nat) :
    ∀ x ∈ foundList text limit, _maybe_append_st x = x :=
  foundCore_fixed _ limit

theorem foundList_nodup (text : String) (limit : Nat) : (foundList text limit).Nodup :=
  foundCore_nodup _ limit

/-- Any admissible iteration order of the candidate set makes the tail of the
resolver a plain truncation of that order. -/
theorem resolveFrom_perm_eq_take {text : String} {limit : Nat} {l : List String}
    (hp : l.Perm (foundList text limit)) : resolveFrom l limit = l.take limit := by
  apply resolveFrom_eq_take
  · intro x hx
    exact foundList_fixed text limit x (hp.mem_iff.mp hx)
  · exact hp.symm.nodup (foundList_nodup text limit)

/-! Concrete candidate sets for the inputs the claims mention (the list is
the set's contents in first-insertion order; its ordering as a Python set
is hash-seed dependent). -/

set_option maxRecDepth 40000 in
theorem foundList_pris :
    foundList "pris på tesla idag" 3 = ["PRIS", "TESLA", "IDAG", "TSLA"] := by decide

set_option maxRecDepth 40000 in
theorem foundList_vadkostar :
    foundList "vad kostar H&M och Ericsson" 3 =
      ["VAD", "H", "M", "OCH", "ERIC-B.ST"] := by decide

set_option maxRecDepth 40000 in
theorem foundList_tesla_apple :
    foundList "tesla apple" 3 = ["TESLA", "APPLE", "TSLA", "AAPL"] := by decide

set_option maxRecDepth 40000 in
theorem rawCandidates_aapl4 :
    rawCandidates "aapl aapl aapl aapl" 3 = ["AAPL", "AAPL", "AAPL", "AAPL"] := by decide

set_option maxRecDepth 40000 in
theorem foundList_aapl4 : foundList "aapl aapl aapl aapl" 3 = ["AAPL"] := by decide

set_option maxRecDepth 40000 in
theorem foundList_sand : foundList "sand" 3 = ["SAND.ST"] := by decide

set_option maxRecDepth 40000 in
theorem foundList_aabb :
    foundList "aa bb cc dd aapl" 3 = ["AA", "BB", "CC", "DD", "AAPL"] := by decide

theorem foundList_ericb : foundList "ERIC-B" 3 = ["ERIC-B.ST"] := by decide

theorem foundList_aapl : foundList "aapl" 3 = ["AAPL"] := by decide

set_option maxRecDepth 40000 in
theorem rawCandidates_tesla_apple_head :
    (rawCandidates "tesla apple" 3).head? = some "TESLA" := by decide

/-! Claim theorems. -/

/-- C1, counterexample.  The claim states that whenever the three strategies
discover more than `limit` raw candidates the output has length exactly
`limit`, in first-discovery order.  Both parts fail: `"aapl aapl aapl aapl"`
produces four raw candidates (all `"AAPL"`) yet the output has length 1,
because the candidates are deduplicated by the set before truncation; and for
`"tesla apple"` (four distinct candidates, first-discovered `"TESLA"`) the
iteration order `["AAPL", "TSLA", "APPLE", "TESLA"]` is an admissible
enumeration of the unordered Python set `found`, and under it the returned
list starts with `"AAPL"`, not with the first-discovered candidate. -/
theorem c1_counterexample :
    (rawCandidates "aapl aapl aapl aapl" 3).length = 4 ∧
    (resolve_tickers_from_text "aapl aapl aapl aapl" 3).length = 1 ∧
    List.Perm ["AAPL", "TSLA", "APPLE", "TESLA"] (foundList "tesla apple" 3) ∧
    resolveFrom ["AAPL", "TSLA", "APPLE", "TESLA"] 3 = ["AAPL", "TSLA", "APPLE"] ∧
    (rawCandidates "tesla apple" 3).head? = some "TESLA" := by
  refine ⟨?_, ?_, ?_, ?_, rawCandidates_tesla_apple_head⟩
  · rw [rawCandidates_aapl4]; rfl
  · show (resolveFrom (foundList "aapl aapl aapl aapl" 3) 3).length = 1
    rw [foundList_aapl4]; rfl
  · rw [foundList_tesla_apple]; decide
  · decide

/-- C1, amended: for every text and positive limit, when the three strategies
discover more than `limit` DISTINCT candidates (after suffix normalisation
and set deduplication), the returned list has exactly `limit` elements, all
drawn from the candidate set; the order is the set's iteration order, which
is not guaranteed to be discovery order. -/
theorem c1_amended_limit :
    ∀ (text : String) (limit : Nat) (l : List String),
      0 < limit → l.Perm (foundList text limit) →
      limit < (foundList text limit).length →
      (resolveFrom l limit).length = limit ∧
      ∀ x ∈ resolveFrom l limit, x ∈ foundList text limit := by
  intro text limit l _ hp hlen
  have ht := resolveFrom_perm_eq_take hp
  constructor
  · rw [ht, List.length_take, hp.length_eq]
    exact Nat.min_eq_left hlen.le
  · intro x hx
    rw [ht] at hx
    exact hp.mem_iff.mp (List.mem_of_mem_take hx)

/-- C1, witness for the amended theorem at `"tesla apple"`, whose candidate
set has four elements. -/
theorem c1_witness :
    (0 < 3 ∧ 3 < (foundList "tesla apple" 3).length) ∧
    (resolveFrom (foundList "tesla apple" 3) 3).length = 3 :=
  ⟨⟨by decide, by rw [foundList_tesla_apple]; decide⟩,
    (c1_amended_limit "tesla apple" 3 (foundList "tesla apple" 3) (by decide)
      (List.Perm.refl _) (by rw [foundList_tesla_apple]; decide)).1⟩

/-- C2: the claim says resolving `"pris på tesla idag"` always includes
`"TSLA"`.  The candidate set is `{PRIS, TESLA, IDAG, TSLA}` (the Swedish
words `pris`, `tesla`, `idag` match the ticker regex); it is a Python `set`
truncated to 3 elements in hash-seed–dependent iteration order, so `"TSLA"`
survives only for favourable seeds.  Under the insertion enumeration the
returned list omits `"TSLA"`; under another admissible enumeration it keeps
it. -/
theorem c2_failing_eval :
    "TSLA" ∈ foundList "pris på tesla idag" 3 ∧
    "TSLA" ∉ resolve_tickers_from_text "pris på tesla idag" 3 ∧
    List.Perm ["TSLA", "PRIS", "TESLA", "IDAG"] (foundList "pris på tesla idag" 3) ∧
    "TSLA" ∈ resolveFrom ["TSLA", "PRIS", "TESLA", "IDAG"] 3 := by
  refine ⟨?_, ?_, ?_, ?_⟩
  · rw [foundList_pris]; decide
  · show "TSLA" ∉ resolveFrom (foundList "pris på tesla idag" 3) 3
    rw [foundList_pris]; decide
  · rw [foundList_pris]; decide
  · decide

/-- C3: the claim says resolving `"vad kostar H&M och Ericsson"` includes
both `"HM-B.ST"` and `"ERIC-B.ST"`.  The tokenizer drops `&`, splitting
`h&m` into the tokens `h` and `m`, so neither the `h&m` nor the `hm` alias
can fire (their fuzzy scores stay far below the cutoff 80) and `"HM-B.ST"`
is never produced — under any set iteration order, since the output is
contained in the suffix-normalised image of the candidate set.
`"ERIC-B.ST"` is discovered, but the set also holds the regex false
positives VAD, H, M, OCH, and the truncation to 3 can drop it (it does
under the insertion enumeration). -/
theorem c3_failing_eval :
    "HM-B.ST" ∉ foundList "vad kostar H&M och Ericsson" 3 ∧
    "HM-B.ST" ∉ (foundList "vad kostar H&M och Ericsson" 3).map _maybe_append_st ∧
    "ERIC-B.ST" ∈ foundList "vad kostar H&M och Ericsson" 3 ∧
    resolve_tickers_from_text "vad kostar H&M och Ericsson" 3 = ["VAD", "H", "M"] ∧
    pySplit (_normalize_company_text "vad kostar H&M och Ericsson") =
      ["vad", "kostar", "h", "m", "och", "ericsson"] := by
  refine ⟨?_, ?_, ?_, ?_, ?_⟩
  · rw [foundList_vadkostar]; decide
  · rw [foundList_vadkostar]; decide
  · rw [foundList_vadkostar]; decide
  · show resolveFrom (foundList "vad kostar H&M och Ericsson" 3) 3 = ["VAD", "H", "M"]
    rw [foundList_vadkostar]; decide
  · decide

/-- C4: `resolve_tickers_from_text("ERIC-B", 3)` returns exactly
`["ERIC-B.ST"]`: the candidate set is the singleton `{ERIC-B.ST}` (strategy
1 normalises the bare share-class token, the fuzzy and exact alias matches
agree), so every iteration order of the set yields the same one-element
list. -/
theorem c4_eric_b_resolves :
    ∀ l : List String, l.Perm (foundList "ERIC-B" 3) → resolveFrom l 3 = ["ERIC-B.ST"] := by
  intro l hp
  rw [foundList_ericb] at hp
  have hl : l = ["ERIC-B.ST"] := List.perm_singleton.mp hp
  subst hl
  decide

/-- C4, witness at the insertion enumeration. -/
theorem c4_witness :
    List.Perm (foundList "ERIC-B" 3) (foundList "ERIC-B" 3) ∧
    resolveFrom (foundList "ERIC-B" 3) 3 = ["ERIC-B.ST"] :=
  ⟨List.Perm.refl _, c4_eric_b_resolves _ (List.Perm.refl _)⟩

/-- C6: empty and garbage inputs resolve to the empty list (the model is a
total function, so no exception is possible), and in general an empty
candidate set yields an empty result. -/
theorem c6_empty_garbage :
    resolve_tickers_from_text "" 3 = [] ∧
    resolve_tickers_from_text "???" 3 = [] ∧
    resolve_tickers_from_text "12345" 3 = [] ∧
    ∀ (text : String) (limit : Nat),
      foundList text limit = [] → resolve_tickers_from_text text limit = [] := by
  refine ⟨by decide, by decide, by decide, ?_⟩
  intro text limit h
  show resolveFrom (foundList text limit) limit = []
  rw [h]
  simp [resolveFrom, dedupFirst]

/-- C6, witness for the conditional part at the empty input. -/
theorem c6_witness :
    foundList "" 3 = [] ∧ resolve_tickers_from_text "" 3 = [] :=
  ⟨by decide, c6_empty_garbage.2.2.2 "" 3 (by decide)⟩

/-- C7: the market-suffix normalizer is idempotent on every ticker string. -/
theorem c7_suffix_idempotent :
    ∀ t : String, _maybe_append_st (_maybe_append_st t) = _maybe_append_st t :=
  maybe_append_st_idem

/-- C9: no element returned by the resolver is a bare Stockholm symbol,
for every input, limit and set iteration order: every returned element is
the suffix-normalised image of a candidate, and `_maybe_append_st` never
outputs a member of `_STOCKHOLM_SUFFIX_CANDIDATES`. -/
theorem c9_no_bare_symbols :
    ∀ (text : String) (limit : Nat) (l : List String) (x : String),
      l.Perm (foundList text limit) → x ∈ resolveFrom l limit →
      x ∉ _STOCKHOLM_SUFFIX_CANDIDATES := by
  intro text limit l x _ hx
  rcases mem_resolveFrom_image hx with ⟨y, _, rfl⟩
  exact maybe_append_st_not_bare y

/-- C9, witness at `"ERIC-B"`. -/
theorem c9_witness :
    (List.Perm (foundList "ERIC-B" 3) (foundList "ERIC-B" 3) ∧
      "ERIC-B.ST" ∈ resolveFrom (foundList "ERIC-B" 3) 3) ∧
    "ERIC-B.ST" ∉ _STOCKHOLM_SUFFIX_CANDIDATES :=
  ⟨⟨List.Perm.refl _, by rw [foundList_ericb]; decide⟩,
    c9_no_bare_symbols "ERIC-B" 3 (foundList "ERIC-B" 3) "ERIC-B.ST"
      (List.Perm.refl _) (by rw [foundList_ericb]; decide)⟩

/-- C10: with limit 0 the resolver returns the empty list without any
validation of the limit, for every input text and every iteration order of
the candidate set (`[:0]` truncates everything). -/
theorem c10_limit_zero :
    ∀ (text : String) (l : List String),
      resolve_tickers_from_text text 0 = [] ∧ resolveFrom l 0 = [] := by
  intro text l
  exact ⟨rfl, rfl⟩

/-! Structure theory of the run scanner, used to relate `str.split()` of the
raw input with the tokens of the normalized text. -/

theorem length_dropWhile_le (p : α → Bool) (l : List α) :
    (l.dropWhile p).length ≤ l.length := by
  induction l with
  | nil => simp
  | cons a as ih =>
    by_cases h : p a
    · rw [List.dropWhile_cons_of_pos h]; exact Nat.le_succ_of_le ih
    · rw [List.dropWhile_cons_of_neg h]

theorem dropWhile_head_fail (p : α → Bool) (l : List α) :
    l.dropWhile p = [] ∨ ∃ e es, l.dropWhile p = e :: es ∧ p e = false := by
  induction l with
  | nil => exact Or.inl rfl
  | cons a as ih =>
    by_cases h : p a
    · rw [List.dropWhile_cons_of_pos h]; exact ih
    · rw [List.dropWhile_cons_of_neg h]
      exact Or.inr ⟨a, as, rfl, by simpa using h⟩

theorem dropWhile_append_break (p : α → Bool) {d : α} (hd : p d = false)
    (l rest : List α) : (l ++ d :: rest).dropWhile p = l.dropWhile p ++ d :: rest := by
  induction l with
  | nil =>
    simp only [List.nil_append, List.dropWhile_nil]
    rw [List.dropWhile_cons_of_neg (by simp [hd])]
  | cons a as ih =>
    by_cases h : p a
    · rw [List.cons_append, List.dropWhile_cons_of_pos h, List.dropWhile_cons_of_pos h, ih]
    · rw [List.cons_append, List.dropWhile_cons_of_neg h, List.dropWhile_cons_of_neg h,
        List.cons_append]

theorem runsBy_append_eq (p : α → Bool) {tok post : List α} (hne : tok ≠ [])
    (hall : ∀ c ∈ tok, p c = true)
    (hpost : post = [] ∨ ∃ e es, post = e :: es ∧ p e = false) :
    runsBy p (tok ++ post) = tok :: runsBy p post := by
  cases tok with
  | nil => cases hne rfl
  | cons t ts =>
    have hpt : p t = true := hall t (List.mem_cons_self t ts)
    rw [List.cons_append, runsBy_cons_pos p _ hpt]
    have hts : ∀ c ∈ ts, p c := fun c hc => hall c (List.mem_cons_of_mem _ hc)
    have htp : post.takeWhile p = [] := by
      rcases hpost with rfl | ⟨e, es, rfl, he⟩
      · rfl
      · rw [List.takeWhile_cons_of_neg (by simp [he])]
    have hdp : post.dropWhile p = post := by
      rcases hpost with rfl | ⟨e, es, rfl, he⟩
      · rfl
      · rw [List.dropWhile_cons_of_neg (by simp [he])]
    rw [List.takeWhile_append_of_pos hts, List.dropWhile_append_of_pos hts, htp, hdp,
      List.append_nil]

theorem runsBy_mem_of_split (p : α → Bool) :
    ∀ (n : Nat) (pre tok post : List α), pre.length ≤ n →
      (pre = [] ∨ ∃ pr d, pre = pr ++ [d] ∧ p d = false) →
      tok ≠ [] → (∀ c ∈ tok, p c = true) →
      (post = [] ∨ ∃ e es, post = e :: es ∧ p e = false) →
      tok ∈ runsBy p (pre ++ tok ++ post) := by
  intro n
  induction n with
  | zero =>
    intro pre tok post hlen hpre hne hall hpost
    have hnil : pre = [] := List.length_eq_zero.mp (Nat.le_zero.mp hlen)
    subst hnil
    rw [List.nil_append, runsBy_append_eq p hne hall hpost]
    exact List.mem_cons_self _ _
  | succ n ih =>
    intro pre tok post hlen hpre hne hall hpost
    cases pre with
    | nil =>
      rw [List.nil_append, runsBy_append_eq p hne hall hpost]
      exact List.mem_cons_self _ _
    | cons x pre1 =>
      rcases hpre with h0 | ⟨pr, d, hpre2, hd⟩
      · exact absurd h0 (by simp)
      · by_cases hx : p x = true
        · cases pr with
          | nil =>
            simp only [List.nil_append] at hpre2
            have hxd : x = d := by injection hpre2
            rw [hxd, hd] at hx
            cases hx
          | cons y pr1 =>
            rw [List.cons_append] at hpre2
            injection hpre2 with hxy hpre3
            rw [List.cons_append, List.cons_append, runsBy_cons_pos p _ hx]
            apply List.mem_cons_of_mem
            subst hpre3
            have hdrop : ((pr1 ++ [d]) ++ (tok ++ post)).dropWhile p =
                (pr1.dropWhile p ++ [d]) ++ (tok ++ post) := by
              have hsplit : ((pr1 ++ [d]) ++ (tok ++ post)) = pr1 ++ d :: (tok ++ post) := by
                simp
              rw [hsplit, dropWhile_append_break p hd]
              simp
            rw [List.append_assoc, hdrop, ← List.append_assoc]
            have hlen2 : (pr1.dropWhile p ++ [d]).length ≤ n := by
              have h1 := length_dropWhile_le p pr1
              simp only [List.length_cons, List.length_append, List.length_singleton] at hlen ⊢
              omega
            exact ih _ tok post hlen2 (Or.inr ⟨pr1.dropWhile p, d, rfl, hd⟩) hne hall hpost
        · have hx2 : p x = false := by
            cases h : p x
            · rfl
            · exact absurd h hx
          rw [List.cons_append, List.cons_append, runsBy_cons_neg p _ hx2]
          have hpre1 : pre1 = [] ∨ ∃ pr2 d2, pre1 = pr2 ++ [d2] ∧ p d2 = false := by
            cases pr with
            | nil =>
              simp only [List.nil_append, List.cons.injEq] at hpre2
              exact Or.inl hpre2.2
            | cons y pr1 =>
              rw [List.cons_append] at hpre2
              injection hpre2 with _ hpre3
              exact Or.inr ⟨pr1, d, hpre3, hd⟩
          have hlen1 : pre1.length ≤ n := by
            simp only [List.length_cons] at hlen
            omega
          exact ih pre1 tok post hlen1 hpre1 hne hall hpost

theorem runsBy_mem_intro (p : α → Bool) {pre tok post : List α}
    (hpre : pre = [] ∨ ∃ pr d, pre = pr ++ [d] ∧ p d = false)
    (hne : tok ≠ []) (hall : ∀ c ∈ tok, p c = true)
    (hpost : post = [] ∨ ∃ e es, post = e :: es ∧ p e = false) :
    tok ∈ runsBy p (pre ++ tok ++ post) :=
  runsBy_mem_of_split p pre.length pre tok post (Nat.le_refl _) hpre hne hall hpost

theorem runsBy_mem_elim (p : α → Bool) :
    ∀ (n : Nat) (l : List α), l.length ≤ n → ∀ tok ∈ runsBy p l,
      ∃ pre post, l = pre ++ tok ++ post ∧ tok ≠ [] ∧ (∀ c ∈ tok, p c = true) ∧
        (pre = [] ∨ ∃ pr d, pre = pr ++ [d] ∧ p d = false) ∧
        (post = [] ∨ ∃ e es, post = e :: es ∧ p e = false) := by
  intro n
  induction n with
  | zero =>
    intro l hlen tok htok
    have : l = [] := List.length_eq_zero.mp (Nat.le_zero.mp hlen)
    subst this
    cases htok
  | succ n ih =>
    intro l hlen tok htok
    cases l with
    | nil => cases htok
    | cons a as =>
      by_cases ha : p a = true
      · rw [runsBy_cons_pos p as ha] at htok
        rcases List.mem_cons.mp htok with rfl | htok2
        · refine ⟨[], as.dropWhile p, ?_, by simp, ?_, Or.inl rfl, dropWhile_head_fail p as⟩
          · rw [List.nil_append, List.cons_append, List.takeWhile_append_dropWhile]
          · intro c hc
            rcases List.mem_cons.mp hc with rfl | hc2
            · exact ha
            · exact List.mem_takeWhile_imp hc2
        · have hlen2 : (as.dropWhile p).length ≤ n := by
            have h1 := length_dropWhile_le p as
            simp only [List.length_cons] at hlen
            omega
          rcases ih _ hlen2 tok htok2 with ⟨pre2, post2, heq, hne, hall, hpre2, hpost2⟩
          refine ⟨(a :: as.takeWhile p) ++ pre2, post2, ?_, hne, hall, ?_, hpost2⟩
          · rw [List.append_assoc, List.append_assoc, ← List.append_assoc pre2,
              ← heq, List.cons_append, List.takeWhile_append_dropWhile]
          · rcases hpre2 with rfl | ⟨pr, d, rfl, hd⟩
            · exfalso
              rw [List.nil_append] at heq
              rcases dropWhile_head_fail p as with hnil | ⟨e, es, hdw, hefail⟩
              · rw [hnil] at heq
                rcases List.append_eq_nil.mp heq.symm with ⟨h1, _⟩
                exact hne h1
              · rw [hdw] at heq
                cases tok with
                | nil => exact hne rfl
                | cons t ts =>
                  rw [List.cons_append] at heq
                  simp only [List.cons.injEq] at heq
                  rw [heq.1] at hefail
                  rw [hall t (List.mem_cons_self t ts)] at hefail
                  cases hefail
            · exact Or.inr ⟨(a :: as.takeWhile p) ++ pr, d, by rw [List.append_assoc], hd⟩
      · have ha2 : p a = false := by
          cases h : p a
          · rfl
          · exact absurd h ha
        rw [runsBy_cons_neg p as ha2] at htok
        have hlen1 : as.length ≤ n := by
          simp only [List.length_cons] at hlen
          omega
        rcases ih as hlen1 tok htok with ⟨pre2, post2, heq, hne, hall, hpre2, hpost2⟩
        refine ⟨a :: pre2, post2, by rw [heq]; rfl, hne, hall, ?_, hpost2⟩
        rcases hpre2 with rfl | ⟨pr, d, rfl, hd⟩
        · exact Or.inr ⟨[], a, rfl, ha2⟩
        · exact Or.inr ⟨a :: pr, d, by rw [List.cons_append], hd⟩

theorem runsBy_mem_split (p : α → Bool) {l tok : List α} (htok : tok ∈ runsBy p l) :
    ∃ pre post, l = pre ++ tok ++ post ∧ tok ≠ [] ∧ (∀ c ∈ tok, p c = true) ∧
      (pre = [] ∨ ∃ pr d, pre = pr ++ [d] ∧ p d = false) ∧
      (post = [] ∨ ∃ e es, post = e :: es ∧ p e = false) :=
  runsBy_mem_elim p l.length l (Nat.le_refl _) tok htok

/-! Bridge between the character classes, the case maps and the two
scanners. -/

theorem ws_lower_fixed : ∀ d ∈ wsChars, pyLowerChar d = d := by decide

theorem ws_not_word : ∀ d ∈ wsChars, isWordChar d = false := by decide

theorem letters_lower_word : ∀ c ∈ asciiLetters, isWordChar (pyLowerChar c) = true := by
  decide

theorem letters_upper_alpha : ∀ c ∈ asciiLetters, isUpperAlpha (pyUpperChar c) = true := by
  decide

theorem pairs_upper_eq :
    ∀ p ∈ casePairs, pyUpperChar p.1 = p.2 ∧ pyUpperChar p.2 = p.2 := by decide

theorem upper_lower_char (c : Char) : pyUpperChar (pyLowerChar c) = pyUpperChar c := by
  cases h : casePairs.find? (fun q => q.2 = c) with
  | none =>
    have h1 : pyLowerChar c = c := by unfold pyLowerChar; rw [h]
    rw [h1]
  | some p =>
    have hmem : p ∈ casePairs := List.mem_of_find?_eq_some h
    have hpc : p.2 = c := by simpa using List.find?_some h
    have h1 : pyLowerChar c = p.1 := by unfold pyLowerChar; rw [h]
    rw [h1, ← hpc, (pairs_upper_eq p hmem).1, (pairs_upper_eq p hmem).2]

theorem pyUpperS_lower (tok : String) :
    pyUpperS ⟨tok.data.map pyLowerChar⟩ = pyUpperS tok := by
  apply stringExt
  rw [pyUpperS_data, pyUpperS_data]
  show (tok.data.map pyLowerChar).map pyUpperChar = tok.data.map pyUpperChar
  rw [List.map_map]
  exact List.map_congr_left (fun c _ => upper_lower_char c)

theorem isPyWs_mem {c : Char} (h : isPyWs c = true) : c ∈ wsChars := by
  unfold isPyWs at h
  exact of_decide_eq_true h

theorem nonws_fail {c : Char} (h : (!isPyWs c) = false) : c ∈ wsChars := by
  apply isPyWs_mem
  cases h2 : isPyWs c
  · rw [h2] at h; cases h
  · rfl

/-- A whitespace-delimited token of the raw input, all of whose characters
are ASCII letters, reappears (lower-cased) as a token of the normalized
text. -/
theorem token_in_tokens {text : String} {tok : String}
    (hmem : tok ∈ pySplit text) (hne : tok.data ≠ [])
    (hletters : ∀ c ∈ tok.data, c ∈ asciiLetters) :
    (⟨tok.data.map pyLowerChar⟩ : String) ∈ pySplit (_normalize_company_text text) := by
  -- extract the run of the raw input
  unfold pySplit at hmem
  rcases List.mem_map.mp hmem with ⟨cs, hcs, hcseq⟩
  have hcsdata : cs = tok.data := by rw [← hcseq]
  subst hcsdata
  rcases runsBy_mem_split _ hcs with ⟨pre, post, heqtext, _, _, hpre, hpost⟩
  -- lower the whole text: the token region becomes a maximal word run
  have hlowmem : tok.data.map pyLowerChar ∈
      runsBy isWordChar (text.data.map pyLowerChar) := by
    rw [heqtext, List.map_append, List.map_append]
    apply runsBy_mem_intro isWordChar
    · rcases hpre with rfl | ⟨pr, d, rfl, hd⟩
      · exact Or.inl rfl
      · have hdws : d ∈ wsChars := nonws_fail hd
        refine Or.inr ⟨pr.map pyLowerChar, d, ?_, ws_not_word d hdws⟩
        rw [List.map_append]
        simp [ws_lower_fixed d hdws]
    · simpa using hne
    · intro c hc
      rcases List.mem_map.mp hc with ⟨a, ha, rfl⟩
      exact letters_lower_word a (hletters a ha)
    · rcases hpost with rfl | ⟨e, es, rfl, he⟩
      · exact Or.inl rfl
      · have hews : e ∈ wsChars := nonws_fail he
        refine Or.inr ⟨e, es.map pyLowerChar, ?_, ws_not_word e hews⟩
        simp [ws_lower_fixed e hews]
  -- every word run is a whitespace-free nonempty token, so splitting the
  -- space-joined normalized text recovers exactly the runs
  have hruns : ∀ r ∈ runsBy isWordChar (text.data.map pyLowerChar),
      r ≠ [] ∧ ∀ c ∈ r, isPyWs c = false := by
    intro r hr
    rcases runsBy_mem_split _ hr with ⟨_, _, _, hne2, hall2, _, _⟩
    refine ⟨hne2, fun c hc => ?_⟩
    have hw := hall2 c hc
    cases h2 : isPyWs c
    · rfl
    · have := ws_not_word c (isPyWs_mem h2)
      rw [this] at hw
      cases hw
  have hsplitnorm : pySplit (_normalize_company_text text) =
      (runsBy isWordChar (text.data.map pyLowerChar)).map (fun cs => (⟨cs⟩ : String)) := by
    unfold pySplit _normalize_company_text
    congr 1
    generalize hRS : runsBy isWordChar (text.data.map pyLowerChar) = RS
    rw [hRS] at hruns
    clear hRS hlowmem
    induction RS with
    | nil => rfl
    | cons r rs ih =>
      cases rs with
      | nil =>
        have h1 : List.intercalate [' '] [r] = r := by simp [List.intercalate]
        rw [h1]
        have hr := hruns r (List.mem_cons_self r [])
        have := @runsBy_append_eq Char (fun c => !isPyWs c) r [] hr.1
          (fun c hc => by simp [hr.2 c hc]) (Or.inl rfl)
        simpa using this
      | cons r2 rs2 =>
        have h1 : List.intercalate [' '] (r :: r2 :: rs2) =
            r ++ ' ' :: List.intercalate [' '] (r2 :: rs2) := by
          simp [List.intercalate, List.intersperse]
        rw [h1]
        have hr := hruns r (List.mem_cons_self r _)
        have h2 : runsBy (fun c => !isPyWs c)
            (r ++ ' ' :: List.intercalate [' '] (r2 :: rs2)) =
            r :: runsBy (fun c => !isPyWs c) (' ' :: List.intercalate [' '] (r2 :: rs2)) :=
          runsBy_append_eq _ hr.1 (fun c hc => by simp [hr.2 c hc])
            (Or.inr ⟨' ', _, rfl, by decide⟩)
        rw [h2, runsBy_cons_neg _ _ (by decide)]
        rw [ih (fun r hr => hruns r (List.mem_cons_of_mem _ hr))]
  rw [hsplitnorm]
  exact List.mem_map_of_mem _ hlowmem

/-- All-upper-case letter tokens of length 1–5 full-match the ticker
regex. -/
theorem shape_of_letters {cs : List Char} (hne : cs ≠ []) (hlen : cs.length ≤ 5)
    (hl : ∀ c ∈ cs, c ∈ asciiLetters) :
    tickerShape ⟨cs.map pyUpperChar⟩ = true := by
  have hall : ∀ c ∈ cs.map pyUpperChar, isUpperAlpha c := by
    intro c hc
    rcases List.mem_map.mp hc with ⟨a, ha, rfl⟩
    exact letters_upper_alpha a (hl a ha)
  have htw : (cs.map pyUpperChar).takeWhile isUpperAlpha = cs.map pyUpperChar := by
    have h0 := @List.takeWhile_append_of_pos Char isUpperAlpha (cs.map pyUpperChar) [] hall
    simpa using h0
  have hdw : (cs.map pyUpperChar).dropWhile isUpperAlpha = [] := by
    have h0 := @List.dropWhile_append_of_pos Char isUpperAlpha (cs.map pyUpperChar) [] hall
    simpa using h0
  have hlen1 : 0 < cs.length := List.length_pos.mpr hne
  unfold tickerShape
  show ((1 ≤ ((cs.map pyUpperChar).takeWhile isUpperAlpha).length &&
      ((cs.map pyUpperChar).takeWhile isUpperAlpha).length ≤ 5) &&
      shapeHyPart ((cs.map pyUpperChar).dropWhile isUpperAlpha)) = true
  rw [htw, hdw]
  have hsh : shapeHyPart ([] : List Char) = true := rfl
  rw [hsh]
  simp only [List.length_map, Bool.and_true, Bool.and_eq_true, decide_eq_true_eq]
  omega

/-- A ticker-shaped token of the normalized text puts its normalized form
into the candidate set. -/
theorem strat1_mem_foundCore {t : String} {limit : Nat} {tok : String}
    (htok : tok ∈ pySplit t) (hshape : tickerShape (pyUpperS tok) = true) :
    _maybe_append_st (pyUpperS tok) ∈ foundCore t limit := by
  unfold foundCore
  apply mem_foldl_stepOf_of_mem
  apply mem_foldl_stepOf_of_mem
  exact mem_foldl_stepOf_of_hit strat1Hit htok
    (by unfold strat1Hit; rw [if_pos hshape]) []

/-- C5, counterexample.  The claim promises the exact upper-cased token in
the output.  The input `"sand"` is a whitespace-delimited 1–5 letter token
and `"SAND"` full-matches the ticker regex, yet `"SAND"` is not even in the
candidate set (hence in no output, for any set iteration order): strategy 1
suffix-normalises it to `"SAND.ST"`.  Moreover, even the normalized form can
be lost to truncation: for `"aa bb cc dd aapl"` the insertion enumeration
returns `["AA", "BB", "CC"]`, dropping `"AAPL"`. -/
theorem c5_counterexample :
    "sand" ∈ pySplit "sand" ∧ tickerShape (pyUpperS "sand") = true ∧
    "SAND" ∉ foundList "sand" 3 ∧
    resolve_tickers_from_text "sand" 3 = ["SAND.ST"] ∧
    "AAPL" ∈ foundList "aa bb cc dd aapl" 3 ∧
    "AAPL" ∉ resolve_tickers_from_text "aa bb cc dd aapl" 3 := by
  refine ⟨by decide, by decide, ?_, ?_, ?_, ?_⟩
  · rw [foundList_sand]; decide
  · show resolveFrom (foundList "sand" 3) 3 = ["SAND.ST"]
    rw [foundList_sand]; decide
  · rw [foundList_aabb]; decide
  · show "AAPL" ∉ resolveFrom (foundList "aa bb cc dd aapl" 3) 3
    rw [foundList_aabb]; decide

/-- C5, amended: for every input containing a whitespace-delimited token of
1–5 ASCII letters, the SUFFIX-NORMALISED upper-cased token
`_maybe_append_st(token.upper())` is in the candidate set (unconditionally),
and it is in the returned list whenever the candidate set fits within
`limit` (for every iteration order of the set). -/
theorem c5_amended_token :
    ∀ (text : String) (limit : Nat) (tok : String) (l : List String),
      tok ∈ pySplit text → tok.data ≠ [] → tok.data.length ≤ 5 →
      (∀ c ∈ tok.data, c ∈ asciiLetters) →
      l.Perm (foundList text limit) →
      _maybe_append_st (pyUpperS tok) ∈ foundList text limit ∧
      ((foundList text limit).length ≤ limit →
        _maybe_append_st (pyUpperS tok) ∈ resolveFrom l limit) := by
  intro text limit tok l htok hne hlen hlet hp
  have h1 : (⟨tok.data.map pyLowerChar⟩ : String) ∈
      pySplit (_normalize_company_text text) := token_in_tokens htok hne hlet
  have hup : pyUpperS ⟨tok.data.map pyLowerChar⟩ = pyUpperS tok := pyUpperS_lower tok
  have hshape : tickerShape (pyUpperS tok) = true := shape_of_letters hne hlen hlet
  have h2 : _maybe_append_st (pyUpperS tok) ∈ foundList text limit := by
    unfold foundList
    have h3 := @strat1_mem_foundCore (_normalize_company_text text) limit _
      h1 (by rw [hup]; exact hshape)
    rwa [hup] at h3
  refine ⟨h2, fun hsmall => ?_⟩
  have ht := resolveFrom_perm_eq_take hp
  rw [ht, List.take_of_length_le (by rw [hp.length_eq]; exact hsmall)]
  exact hp.mem_iff.mpr h2

/-- C5, witness for the amended theorem at the input `"aapl"`. -/
theorem c5_witness :
    ("aapl" ∈ pySplit "aapl" ∧ "aapl".data ≠ [] ∧ "aapl".data.length ≤ 5 ∧
      (∀ c ∈ "aapl".data, c ∈ asciiLetters) ∧ (foundList "aapl" 3).length ≤ 3) ∧
    _maybe_append_st (pyUpperS "aapl") ∈ foundList "aapl" 3 ∧
    _maybe_append_st (pyUpperS "aapl") ∈ resolveFrom (foundList "aapl" 3) 3 :=
  ⟨⟨by decide, by decide, by decide, by decide, by rw [foundList_aapl]; decide⟩,
    (c5_amended_token "aapl" 3 "aapl" (foundList "aapl" 3) (by decide) (by decide)
      (by decide) (by decide) (List.Perm.refl _)).1,
    (c5_amended_token "aapl" 3 "aapl" (foundList "aapl" 3) (by decide) (by decide)
      (by decide) (by decide) (List.Perm.refl _)).2
      (by rw [foundList_aapl]; decide)⟩

/-- C8, counterexample.  The claim asserts two calls with identical
arguments return identical lists with "no hidden state".  The candidate set
is an unordered Python `set` truncated to `limit`, and its iteration order
is per-process hidden state (`PYTHONHASHSEED`): two admissible enumerations
of the same 4-candidate set of `"pris på tesla idag"` yield different
3-element outputs, so identical calls in processes with different hash
seeds can return different lists. -/
theorem c8_counterexample :
    List.Perm ["TSLA", "IDAG", "TESLA", "PRIS"] (foundList "pris på tesla idag" 3) ∧
    resolveFrom (foundList "pris på tesla idag" 3) 3 ≠
      resolveFrom ["TSLA", "IDAG", "TESLA", "PRIS"] 3 := by
  constructor
  · rw [foundList_pris]; decide
  · rw [foundList_pris]; decide

/-- C8, amended: with the set iteration order fixed (as it is within one
interpreter process), the resolver is deterministic — identical arguments
give identical lists — and the output depends on the input text only through
its normalization; the candidate SET is fully input-determined, while the
returned order (and, under truncation, the returned elements) additionally
depend on the process's hash seed. -/
theorem c8_amended_determinism :
    ∀ (t₁ t₂ : String) (limit : Nat) (l₁ l₂ : List String),
      _normalize_company_text t₁ = _normalize_company_text t₂ → l₁ = l₂ →
      foundList t₁ limit = foundList t₂ limit ∧
      resolveFrom l₁ limit = resolveFrom l₂ limit := by
  intro t₁ t₂ limit l₁ l₂ hnorm hl
  subst hl
  exact ⟨by unfold foundList; rw [hnorm], rfl⟩

/-- C8, witness: two raw inputs with the same normalization (punctuation and
case differ) produce the same candidate set. -/
theorem c8_witness :
    _normalize_company_text "pris på tesla idag" =
      _normalize_company_text "PRIS, PÅ: TESLA; IDAG!" ∧
    foundList "pris på tesla idag" 3 = foundList "PRIS, PÅ: TESLA; IDAG!" 3 :=
  ⟨by decide,
    (c8_amended_determinism "pris på tesla idag" "PRIS, PÅ: TESLA; IDAG!" 3 [] []
      (by decide) rfl).1⟩

end TickerResolver
